import Mathlib

/-!
CTales: the passage graph, the wrap loop and the navigation loop of `main.c`.

A shallow embedding of `src/main.c`.

* A C string is the list of its `char`s before the terminating NUL; the
  terminator sits at offset `length`.  Pointers into a string are offsets
  from its beginning.
* The wrap loop reads memory: the string, its terminator and the bytes that
  follow the terminator; a read outside the memory modelled is reported as
  such.
* Arrays (`Passages`, `Links`) are lists; `numPassages` and `numLinks` are
  their lengths.
* The key events delivered by `wgetch` are a list of key codes.
-/

namespace CTales

/-- A C string: its `char`s before the terminating NUL, none of which is
NUL. -/
abbrev CString := List Char

/-- The struct `Link`. -/
structure Link where
  Option : CString
  Target : CString
deriving DecidableEq, Repr

/-- The struct `Passage`; `numLinks` is the length of `Links`. -/
structure Passage where
  PassageName : CString
  Content : CString
  Links : List Link
deriving DecidableEq, Repr

/-- The struct `GameState`; `numPassages` is the length of `Passages`. -/
structure GameState where
  Passages : List Passage
deriving DecidableEq, Repr

/-- The field `numLinks`. -/
def Passage.numLinks (P : Passage) : Nat := P.Links.length

/-- The field `numPassages`. -/
def GameState.numPassages (gs : GameState) : Nat := gs.Passages.length

/-! ## The wrap loop of `displayGameState` -/

/-- The constant `MAX_LINE_LENGTH`. -/
def MAX_LINE_LENGTH : Nat := 50

/-- The memory from the first character of a C string on: the characters of
the string, the terminating NUL, and the bytes `beyond` that follow the
terminator, which do not belong to the string.  A read at an offset that is
not below the length of the memory is outside what is modelled. -/
def memoryOf (text : CString) (beyond : List Char) : List Char :=
  text ++ '\x00' :: beyond

/-- The character at the offset `off`, for an offset inside the memory. -/
def charAt (mem : List Char) (off : Nat) : Char := mem.getD off '\x00'

/-- The function `strlen` on the bytes from a pointer on: `none` when no NUL
is found inside the memory. -/
def strlenFrom : List Char → Option Nat
  | [] => none
  | c :: rest =>
    if c = '\x00' then some 0
    else
      match strlenFrom rest with
      | none => none
      | some n => some (n + 1)

/-- The call `strlen(Start)` for the pointer at the offset `Start`. -/
def strlen (mem : List Char) (Start : Nat) : Option Nat :=
  strlenFrom (mem.drop Start)

/-- The backward search `while(*End != ' ' && End != Start) --End;` entered
with `End = Start + k`; the result is the value of `End` when the search
stops. -/
def scanBack (mem : List Char) (Start : Nat) : Nat → Nat
  | 0 => Start
  | k + 1 =>
    if charAt mem (Start + (k + 1)) = ' ' then Start + (k + 1)
    else scanBack mem Start k

/-- The body of the wrap loop up to the copy into `Line`: the value of `End`
computed for the scan position `Start`; `none` when `strlen(Start)` finds no
NUL inside the memory. -/
def lineEnd (maxWidth : Nat) (mem : List Char) (Start : Nat) : Option Nat :=
  match strlen mem Start with
  | none => none
  | some n =>
    if n > maxWidth then
      if scanBack mem Start maxWidth = Start then some (Start + maxWidth)
      else some (scanBack mem Start maxWidth)
    else some (Start + n)

/-- The characters `memcpy(Line, Start, End - Start)` copies. -/
def lineText (mem : List Char) (Start End : Nat) : CString :=
  (mem.drop Start).take (End - Start)

/-- How the wrap loop ends. -/
inductive WrapEnd where
  /-- The loop condition read a NUL at the offset `Start`: the loop is left. -/
  | done (Start : Nat)
  /-- A read at the offset `off` is outside the memory. -/
  | fault (off : Nat)
  /-- The bound on the number of iterations was reached at `Start`. -/
  | unfinished (Start : Nat)
deriving DecidableEq, Repr

/-- The offset of the last read of the loop. -/
def WrapEnd.offset : WrapEnd → Nat
  | .done Start => Start
  | .fault off => off
  | .unfinished Start => Start

/-- The loop `while(*Start != '\0') { ... Start = End + 1; }` on the memory
`mem`, entered at the offset `Start`.  The result is the list of pairs
`(Start, End)` of the lines printed, in order, and the way the loop ends.
The loop condition reads the byte at `Start` wherever `Start` is, also past
the terminator of the string the loop began in, and the loop goes on when
that byte is not NUL.  The first argument bounds the number of iterations. -/
def wrapLoop (maxWidth : Nat) (mem : List Char) :
    Nat → Nat → List (Nat × Nat) × WrapEnd
  | 0, Start => ([], .unfinished Start)
  | fuel + 1, Start =>
    match mem[Start]? with
    | none => ([], .fault Start)
    | some c =>
      if c = '\x00' then ([], .done Start)
      else
        match lineEnd maxWidth mem Start with
        | none => ([], .fault mem.length)
        | some End =>
          ((Start, End) :: (wrapLoop maxWidth mem fuel (End + 1)).1,
            (wrapLoop maxWidth mem fuel (End + 1)).2)

/-- The wrap loop entered at the scan position `Start`; every iteration
advances `Start`, so `mem.length - Start + 1` iterations are enough (see
`wrapLoop_enough` and `wrapFrom_finished`). -/
def wrapFrom (maxWidth : Nat) (mem : List Char) (Start : Nat) :
    List (Nat × Nat) × WrapEnd :=
  wrapLoop maxWidth mem (mem.length - Start + 1) Start

/-- The wrap loop run from the beginning of the memory. -/
def wrap (maxWidth : Nat) (mem : List Char) : List (Nat × Nat) × WrapEnd :=
  wrapFrom maxWidth mem 0

/-- The lines the wrap loop prints, as strings. -/
def wrapLines (maxWidth : Nat) (mem : List Char) : List CString :=
  (wrap maxWidth mem).1.map fun se => lineText mem se.1 se.2

/-- The wrap loop of `displayGameState` for the passage `P`, whose
`Content` is followed in memory by the bytes `beyond`: the lines printed, as
pairs `(Start, End)` of offsets from `P->Content`. -/
def displayGameState (P : Passage) (beyond : List Char) : List (Nat × Nat) :=
  (wrap MAX_LINE_LENGTH (memoryOf P.Content beyond)).1

/-- The piece of a text a line stands for: the line and the character after
it, which the loop skips. -/
def lineAndSkipped (text : CString) (se : Nat × Nat) : CString :=
  lineText text se.1 se.2 ++ (text.drop se.2).take 1

/-! ## Lookup -/

/-- The loop of `findPassageByName` over the passages not yet visited. -/
def findInPassages (Name : CString) : List Passage → Option Passage
  | [] => none
  | P :: rest => if P.PassageName = Name then some P else findInPassages Name rest

/-- The function `findPassageByName`; `none` is `NULL`. -/
def findPassageByName (gs : GameState) (Name : CString) : Option Passage :=
  findInPassages Name gs.Passages

/-! ## The input controller -/

/-- The key code `KEY_DOWN` of ncurses. -/
def KEY_DOWN : Int := 258

/-- The key code `KEY_UP` of ncurses. -/
def KEY_UP : Int := 259

/-- The key code `KEY_F(n)` of ncurses. -/
def KEY_F (n : Int) : Int := 264 + n

/-- How a call of `handleUserInput` ends on a finite list of key events. -/
inductive InputResult where
  /-- The statement `return I` is reached; `rest` are the keys not yet read. -/
  | returned (I : Nat) (rest : List Int)
  /-- The escape menu called `exit(0)`. -/
  | exited
  /-- A `wgetch` waits for a key that the list no longer holds; `I` is the
  cursor of `handleUserInput` at that moment. -/
  | blocked (I : Nat)
deriving DecidableEq, Repr

/-- The cursor `I` of `handleUserInput` when the call ends, if the process
still runs. -/
def InputResult.cursor : InputResult → Option Nat
  | .returned I _ => some I
  | .exited => none
  | .blocked I => some I

mutual
/-- The loop `while((Ch = wgetch(MenuWin)) != '\n')` of `handleUserInput`
with the cursor `I`. -/
def handleKeys (numLinks : Nat) (I : Nat) : List Int → InputResult
  | [] => .blocked I
  | Ch :: rest =>
    if Ch = 10 then .returned I rest
    else if Ch = KEY_DOWN ∧ I < numLinks - 1 then handleKeys numLinks (I + 1) rest
    else if Ch = KEY_UP ∧ I > 0 then handleKeys numLinks (I - 1) rest
    else if Ch = 27 then displayEscapeMenu numLinks I 0 rest
    else handleKeys numLinks I rest
/-- The key loop of `displayEscapeMenu`, called from `handleUserInput` whose
cursor is `I`; `sel` is the index of the current item of the menu
(0 `Continue`, 1 `Exit`); where the function returns, the loop of
`handleUserInput` goes on.  The requests `REQ_DOWN_ITEM` and `REQ_UP_ITEM` of
the menu library move the current item without wrapping around. -/
def displayEscapeMenu (numLinks I : Nat) (sel : Nat) : List Int → InputResult
  | [] => .blocked I
  | C :: rest =>
    if C = KEY_F 1 then handleKeys numLinks I rest
    else if C = KEY_DOWN then displayEscapeMenu numLinks I (min (sel + 1) 1) rest
    else if C = KEY_UP then displayEscapeMenu numLinks I (sel - 1) rest
    else if C = 27 then handleKeys numLinks I rest
    else if C = 10 then
      if sel = 1 then .exited else handleKeys numLinks I rest
    else displayEscapeMenu numLinks I sel rest
end

/-- The function `handleUserInput` on the key events `keys`. -/
def handleUserInput (CurrentPassage : Passage) (keys : List Int) : InputResult :=
  if CurrentPassage.numLinks > 0 then handleKeys CurrentPassage.numLinks 0 keys
  else
    match keys with
    | [] => .blocked 0
    | _ :: rest => .returned 0 rest

/-! ## One iteration of the loop of `main` -/

/-- How one iteration of `while(1)` in `main` ends. -/
inductive IterResult where
  /-- The loop goes on with the new `CurrentPassage`. -/
  | next (P : Passage) (rest : List Int)
  /-- The statement `break` is reached: `main` frees the graph and returns
  `code`. -/
  | finished (code : Int)
  /-- The escape menu called `exit(code)`. -/
  | exited (code : Int)
  /-- A `wgetch` waits for a key. -/
  | blocked
  /-- The read `CurrentPassage->Links[Choice]` is outside the array. -/
  | undefined
deriving DecidableEq, Repr

/-- The body of `while(1)` in `main`: the choice, then the lookup of the
target of the chosen link. -/
def mainIteration (gs : GameState) (CurrentPassage : Passage) (keys : List Int) :
    IterResult :=
  match handleUserInput CurrentPassage keys with
  | .returned Choice rest =>
    match CurrentPassage.Links[Choice]? with
    | none => .undefined
    | some L =>
      match findPassageByName gs L.Target with
      | some P => .next P rest
      | none => .finished 0
  | .exited => .exited 0
  | .blocked _ => .blocked

/-! ## Loading -/

/-- A decoded JSON value (jansson's `json_t`). -/
inductive Json where
  | null
  | boolean (b : Bool)
  | integer (n : Int)
  | string (s : CString)
  | array (elems : List Json)
  | object (members : List (CString × Json))

/-- The macro `json_is_array` of jansson. -/
def json_is_array : Json → Bool
  | .array _ => true
  | _ => false

/-- The elements `json_array_get(j, 0)`, ..., `json_array_get(j, n - 1)` for
`n = json_array_size(j)`; the size is 0 when `j` is `NULL` or no array. -/
def json_array_elems : Option Json → List Json
  | some (.array elems) => elems
  | _ => []

/-- The function `json_object_get` of jansson: `NULL` when the value is
`NULL` or no object, or has no such key. -/
def json_object_get : Option Json → CString → Option Json
  | some (.object members), key => members.lookup key
  | _, _ => none

/-- The function `json_string_value` of jansson: `NULL` when the value is
`NULL` or no string. -/
def json_string_value : Option Json → Option CString
  | some (.string s) => some s
  | _ => none

/-- The function `strdup`; on `NULL` its behaviour is undefined, which is
the result `none`. -/
def strdup : Option CString → Option CString
  | some s => some s
  | none => none

/-- The body of the inner loop of `loadGame` for one link record; `none`
when a `strdup(NULL)` is executed. -/
def loadLink (JsonLink : Json) : Option Link :=
  match strdup (json_string_value (json_object_get (some JsonLink) "Option".toList)) with
  | none => none
  | some o =>
    match strdup (json_string_value (json_object_get (some JsonLink) "Target".toList)) with
    | none => none
    | some t => some ⟨o, t⟩

/-- The inner loop of `loadGame` over the link records. -/
def loadLinks : List Json → Option (List Link)
  | [] => some []
  | JsonLink :: rest =>
    match loadLink JsonLink with
    | none => none
    | some L =>
      match loadLinks rest with
      | none => none
      | some Ls => some (L :: Ls)

/-- The body of the outer loop of `loadGame` for one passage record. -/
def loadPassage (JsonPassage : Json) : Option Passage :=
  match strdup (json_string_value (json_object_get (some JsonPassage) "PassageName".toList)) with
  | none => none
  | some name =>
    match strdup (json_string_value (json_object_get (some JsonPassage) "Content".toList)) with
    | none => none
    | some content =>
      match loadLinks (json_array_elems (json_object_get (some JsonPassage) "Links".toList)) with
      | none => none
      | some links => some ⟨name, content, links⟩

/-- The outer loop of `loadGame` over the passage records. -/
def loadPassages : List Json → Option (List Passage)
  | [] => some []
  | JsonPassage :: rest =>
    match loadPassage JsonPassage with
    | none => none
    | some P =>
      match loadPassages rest with
      | none => none
      | some Ps => some (P :: Ps)

/-- What a call of `loadGame` yields. -/
inductive LoadResult where
  /-- The statement `return NULL`. -/
  | null
  /-- The statement `return GameState`. -/
  | loaded (gs : GameState)
  /-- A `strdup(NULL)` was executed. -/
  | undefined
deriving DecidableEq, Repr

/-- The function `loadGame`; `Root` is the result of `json_load_file`, which
is `none` (`NULL`) when the file is missing or is not JSON.  The cast
`(int)json_array_size(Root)` leaves the size of an array of fewer than
`2^31` elements as it is. -/
def loadGame (Root : Option Json) : LoadResult :=
  match Root with
  | none => .null
  | some root =>
    if json_is_array root then
      match loadPassages (json_array_elems (some root)) with
      | some Ps => .loaded ⟨Ps⟩
      | none => .undefined
    else .null

/-- How `main` goes up to the entry of its loop. -/
inductive Startup where
  /-- The statement `return code`. -/
  | exit (code : Int)
  /-- The loop is entered with the graph and `CurrentPassage`. -/
  | play (gs : GameState) (CurrentPassage : Passage)
  /-- A `strdup(NULL)`, or the read `Passages[0]` of an empty array. -/
  | undefined
deriving DecidableEq, Repr

/-- The function `main` from its beginning to the entry of `while(1)`. -/
def mainStartup (Argc : Nat) (Root : Option Json) : Startup :=
  if Argc < 2 then .exit 1
  else
    match loadGame Root with
    | .null => .exit 1
    | .undefined => .undefined
    | .loaded gs =>
      match gs.Passages[0]? with
      | some P => .play gs P
      | none => .undefined

/-! ## Properties of the wrap loop -/

theorem charAt_drop (mem : List Char) (S j : Nat) :
    charAt (mem.drop S) j = charAt mem (S + j) := by
  simp [charAt, List.getD_eq_getElem?_getD, List.getElem?_drop]

theorem strlenFrom_spec (l : List Char) :
    ∀ n, strlenFrom l = some n →
      n < l.length ∧ charAt l n = '\x00' ∧ ∀ j, j < n → charAt l j ≠ '\x00' := by
  induction l with
  | nil => intro n h; simp [strlenFrom] at h
  | cons c rest ih =>
    intro n h
    unfold strlenFrom at h
    by_cases hc : c = '\x00'
    · rw [if_pos hc] at h
      have hn : n = 0 := (Option.some.inj h).symm
      subst hn
      refine ⟨by simp, by simp [charAt, hc], fun j hj => absurd hj (Nat.not_lt_zero _)⟩
    · rw [if_neg hc] at h
      cases hr : strlenFrom rest with
      | none => rw [hr] at h; simp at h
      | some m =>
        rw [hr] at h
        have hn : n = m + 1 := (Option.some.inj h).symm
        subst hn
        obtain ⟨h1, h2, h3⟩ := ih m hr
        refine ⟨by simp; omega, by simpa [charAt] using h2, ?_⟩
        intro j hj
        cases j with
        | zero => simpa [charAt] using hc
        | succ i =>
          have := h3 i (by omega)
          simpa [charAt] using this

theorem strlen_spec (mem : List Char) (S n : Nat) (h : strlen mem S = some n) :
    S + n < mem.length ∧ charAt mem (S + n) = '\x00' ∧
      ∀ j, j < n → charAt mem (S + j) ≠ '\x00' := by
  unfold strlen at h
  obtain ⟨h1, h2, h3⟩ := strlenFrom_spec _ n h
  rw [List.length_drop] at h1
  rw [charAt_drop] at h2
  refine ⟨by omega, h2, fun j hj => ?_⟩
  have := h3 j hj
  rwa [charAt_drop] at this

theorem strlenFrom_memoryOf (text : CString) (beyond : List Char)
    (hnul : ∀ c ∈ text, c ≠ '\x00') :
    strlenFrom (memoryOf text beyond) = some text.length := by
  induction text with
  | nil => simp [memoryOf, strlenFrom]
  | cons c rest ih =>
    have hc : c ≠ '\x00' := hnul c (by simp)
    have hrest := ih (fun d hd => hnul d (by simp [hd]))
    unfold memoryOf at hrest ⊢
    rw [List.cons_append]
    unfold strlenFrom
    rw [if_neg hc, hrest]
    simp

theorem drop_memoryOf (text : CString) (beyond : List Char) (S : Nat)
    (hS : S ≤ text.length) :
    (memoryOf text beyond).drop S = memoryOf (text.drop S) beyond := by
  unfold memoryOf
  rw [List.drop_append_of_le_length hS]

theorem strlen_memoryOf (text : CString) (beyond : List Char) (S : Nat)
    (hnul : ∀ c ∈ text, c ≠ '\x00') (hS : S ≤ text.length) :
    strlen (memoryOf text beyond) S = some (text.length - S) := by
  unfold strlen
  rw [drop_memoryOf _ _ _ hS,
    strlenFrom_memoryOf _ _ (fun c hc => hnul c (List.mem_of_mem_drop hc)),
    List.length_drop]

theorem charAt_memoryOf (text : CString) (beyond : List Char) (i : Nat)
    (hi : i ≤ text.length) : charAt (memoryOf text beyond) i = charAt text i := by
  unfold charAt memoryOf
  rw [List.getD_eq_getElem?_getD, List.getD_eq_getElem?_getD]
  by_cases h : i < text.length
  · rw [List.getElem?_append_left h]
  · have he : i = text.length := by omega
    subst he
    rw [List.getElem?_append_right (le_refl _), List.getElem?_eq_none (le_refl _)]
    simp

theorem scanBack_ge (mem : List Char) (Start k : Nat) : Start ≤ scanBack mem Start k := by
  induction k with
  | zero => simp [scanBack]
  | succ k ih =>
    unfold scanBack
    split
    · omega
    · exact ih

theorem scanBack_le (mem : List Char) (Start k : Nat) : scanBack mem Start k ≤ Start + k := by
  induction k with
  | zero => simp [scanBack]
  | succ k ih =>
    unfold scanBack
    split
    · omega
    · omega

theorem scanBack_of_space (mem : List Char) (Start : Nat) (j : Nat) :
    ∀ k, j ≤ k → 1 ≤ j → charAt mem (Start + j) = ' ' →
      (∀ i, j < i → i ≤ k → charAt mem (Start + i) ≠ ' ') →
      scanBack mem Start k = Start + j := by
  intro k
  induction k with
  | zero => intro h1 h2; omega
  | succ k ih =>
    intro hjk hj hsp hno
    unfold scanBack
    by_cases hk : j = k + 1
    · subst hk
      simp [hsp]
    · have hne : charAt mem (Start + (k + 1)) ≠ ' ' := hno (k + 1) (by omega) (by omega)
      simp only [hne, if_false]
      exact ih (by omega) hj hsp (fun i h1 h2 => hno i h1 (by omega))

theorem scanBack_of_no_space (mem : List Char) (Start : Nat) :
    ∀ k, (∀ i, 1 ≤ i → i ≤ k → charAt mem (Start + i) ≠ ' ') →
      scanBack mem Start k = Start := by
  intro k
  induction k with
  | zero => intro _; rfl
  | succ k ih =>
    intro hno
    unfold scanBack
    have hne : charAt mem (Start + (k + 1)) ≠ ' ' := hno (k + 1) (by omega) (by omega)
    simp only [hne, if_false]
    exact ih (fun i h1 h2 => hno i h1 (by omega))

/-- The search gives the same result on two memories that agree on the
offsets it reads. -/
theorem scanBack_congr (mem mem2 : List Char) (Start : Nat) :
    ∀ k, (∀ i, 1 ≤ i → i ≤ k → charAt mem (Start + i) = charAt mem2 (Start + i)) →
      scanBack mem Start k = scanBack mem2 Start k := by
  intro k
  induction k with
  | zero => intro _; rfl
  | succ k ih =>
    intro h
    unfold scanBack
    rw [h (k + 1) (by omega) (by omega), ih (fun i h1 h2 => h i h1 (by omega))]

/-- What `lineEnd` yields: a line that starts at `Start`, is at most
`maxWidth` long and ends at or before the NUL that `strlen` found. -/
theorem lineEnd_spec (maxWidth : Nat) (mem : List Char) (Start E : Nat)
    (h : lineEnd maxWidth mem Start = some E) :
    Start ≤ E ∧ E - Start ≤ maxWidth ∧ E < mem.length ∧
      ∃ n, strlen mem Start = some n ∧ E ≤ Start + n := by
  unfold lineEnd at h
  cases hn : strlen mem Start with
  | none => rw [hn] at h; simp at h
  | some n =>
    rw [hn] at h
    have hs := (strlen_spec mem Start n hn).1
    have h1 := scanBack_ge mem Start maxWidth
    have h2 := scanBack_le mem Start maxWidth
    simp only at h
    split at h
    · split at h
      · have := Option.some.inj h
        exact ⟨by omega, by omega, by omega, n, rfl, by omega⟩
      · have := Option.some.inj h
        exact ⟨by omega, by omega, by omega, n, rfl, by omega⟩
    · have := Option.some.inj h
      exact ⟨by omega, by omega, by omega, n, rfl, by omega⟩

/-- One unfolding of the loop. -/
theorem wrapLoop_succ (maxWidth : Nat) (mem : List Char) (fuel Start : Nat) :
    wrapLoop maxWidth mem (fuel + 1) Start =
      match mem[Start]? with
      | none => ([], .fault Start)
      | some c =>
        if c = '\x00' then ([], .done Start)
        else
          match lineEnd maxWidth mem Start with
          | none => ([], .fault mem.length)
          | some End =>
            ((Start, End) :: (wrapLoop maxWidth mem fuel (End + 1)).1,
              (wrapLoop maxWidth mem fuel (End + 1)).2) := by
  rw [wrapLoop]

/-- The result of the loop does not depend on the bound on the iterations,
once the bound is larger than the number of bytes left. -/
theorem wrapLoop_enough (maxWidth : Nat) (mem : List Char) :
    ∀ fuel fuel2 Start, 1 ≤ fuel → mem.length < Start + fuel →
      1 ≤ fuel2 → mem.length < Start + fuel2 →
      wrapLoop maxWidth mem fuel Start = wrapLoop maxWidth mem fuel2 Start := by
  intro fuel
  induction fuel with
  | zero => intro fuel2 Start h; omega
  | succ n ih =>
    intro fuel2 Start _ h1 h2 h3
    cases fuel2 with
    | zero => omega
    | succ m =>
      rw [wrapLoop_succ, wrapLoop_succ]
      cases hc : mem[Start]? with
      | none => rfl
      | some c =>
        have hlt : Start < mem.length := by
          by_contra hge
          rw [List.getElem?_eq_none (by omega)] at hc
          simp at hc
        simp only
        split
        · rfl
        · cases hE : lineEnd maxWidth mem Start with
          | none => rfl
          | some E =>
            obtain ⟨hge, _, _, _⟩ := lineEnd_spec maxWidth mem Start E hE
            simp only
            rw [ih m (E + 1) (by omega) (by omega) (by omega) (by omega)]

/-- One iteration of the wrap loop at a scan position where the byte read is
not NUL and `strlen` finds a NUL. -/
theorem wrapFrom_step (maxWidth : Nat) (mem : List Char) (Start E : Nat) (c : Char)
    (hc : mem[Start]? = some c) (hne : c ≠ '\x00')
    (hE : lineEnd maxWidth mem Start = some E) :
    wrapFrom maxWidth mem Start =
      ((Start, E) :: (wrapFrom maxWidth mem (E + 1)).1,
        (wrapFrom maxWidth mem (E + 1)).2) := by
  obtain ⟨hge, _, hlt, _⟩ := lineEnd_spec maxWidth mem Start E hE
  unfold wrapFrom
  rw [wrapLoop_succ, hc]
  simp only [hne, if_false, hE]
  rw [wrapLoop_enough maxWidth mem (mem.length - Start) (mem.length - (E + 1) + 1)
    (E + 1) (by omega) (by omega) (by omega) (by omega)]

theorem wrapFrom_nul (maxWidth : Nat) (mem : List Char) (Start : Nat)
    (hc : mem[Start]? = some '\x00') :
    wrapFrom maxWidth mem Start = ([], .done Start) := by
  unfold wrapFrom
  rw [wrapLoop_succ, hc]
  simp

theorem wrapFrom_outside (maxWidth : Nat) (mem : List Char) (Start : Nat)
    (hc : mem.length ≤ Start) :
    wrapFrom maxWidth mem Start = ([], .fault Start) := by
  unfold wrapFrom
  rw [wrapLoop_succ, List.getElem?_eq_none hc]

/-- With a bound larger than the number of bytes left the loop never stops
at the bound: it ends at a NUL or at a read outside the memory. -/
theorem wrapLoop_finished (maxWidth : Nat) (mem : List Char) :
    ∀ fuel Start, 1 ≤ fuel → mem.length < Start + fuel →
      ∀ s, (wrapLoop maxWidth mem fuel Start).2 ≠ .unfinished s := by
  intro fuel
  induction fuel with
  | zero => intro Start h; omega
  | succ n ih =>
    intro Start _ h1 s
    rw [wrapLoop_succ]
    cases hc : mem[Start]? with
    | none => simp
    | some c =>
      have hlt : Start < mem.length := by
        by_contra hge
        rw [List.getElem?_eq_none (by omega)] at hc
        simp at hc
      simp only
      split
      · simp
      · cases hE : lineEnd maxWidth mem Start with
        | none => simp
        | some E =>
          obtain ⟨hge, _, _, _⟩ := lineEnd_spec maxWidth mem Start E hE
          simp only
          exact ih (E + 1) (by omega) (by omega) s

theorem wrapFrom_finished (maxWidth : Nat) (mem : List Char) (Start s : Nat) :
    (wrapFrom maxWidth mem Start).2 ≠ .unfinished s :=
  wrapLoop_finished maxWidth mem _ Start (by omega) (by omega) s

/-- Every line of the loop is `(s, E)` for a scan position `s` at which the
byte is not NUL and for which the body of the loop computes `E`. -/
theorem wrapLoop_mem (maxWidth : Nat) (mem : List Char) :
    ∀ fuel Start, ∀ se ∈ (wrapLoop maxWidth mem fuel Start).1,
      Start ≤ se.1 ∧ lineEnd maxWidth mem se.1 = some se.2 ∧
        charAt mem se.1 ≠ '\x00' := by
  intro fuel
  induction fuel with
  | zero => intro Start se hse; simp [wrapLoop] at hse
  | succ n ih =>
    intro Start se hse
    rw [wrapLoop_succ] at hse
    cases hc : mem[Start]? with
    | none => rw [hc] at hse; simp at hse
    | some c =>
      rw [hc] at hse
      simp only at hse
      split at hse
      · simp at hse
      · rename_i hne
        cases hE : lineEnd maxWidth mem Start with
        | none => rw [hE] at hse; simp at hse
        | some E =>
          rw [hE] at hse
          simp only at hse
          obtain ⟨hge, _, _, _⟩ := lineEnd_spec maxWidth mem Start E hE
          rcases List.mem_cons.mp hse with h1 | h1
          · subst h1
            refine ⟨le_refl _, hE, ?_⟩
            simp only [charAt, List.getD_eq_getElem?_getD, hc]
            simpa using hne
          · obtain ⟨a, b, d⟩ := ih (E + 1) se h1
            exact ⟨by omega, b, d⟩

theorem lineText_length (mem : List Char) (S E : Nat) (h : E ≤ mem.length) :
    (lineText mem S E).length = E - S := by
  unfold lineText
  rw [List.length_take, List.length_drop]
  omega

theorem getElem?_memoryOf (text : CString) (beyond : List Char) (S : Nat)
    (hnul : ∀ c ∈ text, c ≠ '\x00') (hS : S < text.length) :
    ∃ c, (memoryOf text beyond)[S]? = some c ∧ c ≠ '\x00' := by
  refine ⟨text[S], ?_, hnul _ (List.getElem_mem hS)⟩
  unfold memoryOf
  rw [List.getElem?_append_left hS, List.getElem?_eq_getElem hS]

theorem lineText_memoryOf (text : CString) (beyond : List Char) (S E : Nat)
    (hE : E ≤ text.length) :
    lineText (memoryOf text beyond) S E = lineText text S E := by
  unfold lineText
  by_cases hS : S ≤ text.length
  · rw [drop_memoryOf _ _ _ hS]
    unfold memoryOf
    rw [List.take_append_of_le_length (by rw [List.length_drop]; omega)]
  · have h0 : E - S = 0 := by omega
    rw [h0]
    simp

theorem scanBack_memoryOf (text : CString) (beyond : List Char) (Start k : Nat)
    (h : Start + k ≤ text.length) :
    scanBack (memoryOf text beyond) Start k = scanBack text Start k :=
  scanBack_congr _ _ _ k (fun i _ hi => charAt_memoryOf text beyond (Start + i) (by omega))

/-- The break at a space: the body of the loop at a position of the text
with more than `maxWidth` characters left. -/
theorem lineEnd_at_space (maxWidth : Nat) (text : CString) (beyond : List Char)
    (Start k : Nat) (hnul : ∀ c ∈ text, c ≠ '\x00')
    (hlong : maxWidth < text.length - Start) (hk1 : 1 ≤ k) (hk2 : k ≤ maxWidth)
    (hsp : charAt text (Start + k) = ' ')
    (hno : ∀ j, k < j → j ≤ maxWidth → charAt text (Start + j) ≠ ' ') :
    lineEnd maxWidth (memoryOf text beyond) Start = some (Start + k) := by
  have hscan := scanBack_of_space text Start k maxWidth hk2 hk1 hsp hno
  unfold lineEnd
  rw [strlen_memoryOf _ _ _ hnul (by omega)]
  simp only
  rw [if_pos hlong, scanBack_memoryOf _ _ _ _ (by omega), hscan, if_neg (by omega)]

/-- The hard cut: no space at the offsets `1..maxWidth` from a position of
the text with more than `maxWidth` characters left. -/
theorem lineEnd_hard_cut (maxWidth : Nat) (text : CString) (beyond : List Char)
    (Start : Nat) (hnul : ∀ c ∈ text, c ≠ '\x00')
    (hlong : maxWidth < text.length - Start)
    (hno : ∀ k, 1 ≤ k → k ≤ maxWidth → charAt text (Start + k) ≠ ' ') :
    lineEnd maxWidth (memoryOf text beyond) Start = some (Start + maxWidth) := by
  have hscan := scanBack_of_no_space text Start maxWidth hno
  unfold lineEnd
  rw [strlen_memoryOf _ _ _ hnul (by omega)]
  simp only
  rw [if_pos hlong, scanBack_memoryOf _ _ _ _ (by omega), if_pos hscan]

/-- The last line of the text: at most `maxWidth` characters are left. -/
theorem lineEnd_short (maxWidth : Nat) (text : CString) (beyond : List Char)
    (Start : Nat) (hnul : ∀ c ∈ text, c ≠ '\x00') (hS : Start ≤ text.length)
    (hshort : ¬ maxWidth < text.length - Start) :
    lineEnd maxWidth (memoryOf text beyond) Start = some text.length := by
  unfold lineEnd
  rw [strlen_memoryOf _ _ _ hnul hS]
  simp only
  rw [if_neg hshort]
  congr 1
  omega

/-- After the last line of a text the loop goes on at the offset
`text.length + 1`, one past the terminator. -/
theorem wrapFrom_last_line (maxWidth : Nat) (text : CString) (beyond : List Char)
    (Start : Nat) (hnul : ∀ c ∈ text, c ≠ '\x00') (hS : Start < text.length)
    (hshort : ¬ maxWidth < text.length - Start) :
    wrapFrom maxWidth (memoryOf text beyond) Start =
      ((Start, text.length) ::
          (wrapFrom maxWidth (memoryOf text beyond) (text.length + 1)).1,
        (wrapFrom maxWidth (memoryOf text beyond) (text.length + 1)).2) := by
  obtain ⟨c, hc, hne⟩ := getElem?_memoryOf text beyond Start hnul hS
  exact wrapFrom_step _ _ _ _ c hc hne
    (lineEnd_short maxWidth text beyond Start hnul (by omega) hshort)

/-- The last evaluation of the loop condition inside a text that is not
empty and fits in one line is followed by one at the offset
`text.length + 1`. -/
theorem wrap_short_text_overrun (maxWidth : Nat) (text : CString) (beyond : List Char)
    (hnul : ∀ c ∈ text, c ≠ '\x00') (h0 : text ≠ []) (hshort : text.length ≤ maxWidth) :
    wrap maxWidth (memoryOf text beyond) =
      ((0, text.length) ::
          (wrapFrom maxWidth (memoryOf text beyond) (text.length + 1)).1,
        (wrapFrom maxWidth (memoryOf text beyond) (text.length + 1)).2) :=
  wrapFrom_last_line maxWidth text beyond 0 hnul (List.length_pos.mpr h0) (by omega)

theorem lineAndSkipped_drop (text : CString) (S E : Nat) (h : S ≤ E) :
    lineAndSkipped text (S, E) ++ text.drop (E + 1) = text.drop S := by
  unfold lineAndSkipped lineText
  simp only
  have h1 : text.drop E = (text.drop S).drop (E - S) := by
    rw [List.drop_drop]
    congr 1
    omega
  have h2 : text.drop (E + 1) = (text.drop E).drop 1 := by
    rw [List.drop_drop]
  rw [h2, List.append_assoc, List.take_append_drop, h1, List.take_append_drop]

/-- The lines printed while the scan position is inside a text without NUL:
from a position `S` of the text the loop prints lines `segs` that are
substrings of the text, the first starting at `S`, every later one starting
one character after the end of the line before it, and that with the
character skipped after each give the text from `S` back; then it goes on at
the offset `T`, which is the terminator, where it ends, or the offset one
past the terminator, where it reads a byte that is not part of the text. -/
theorem wrapFrom_inside_text (maxWidth : Nat) (text : CString) (beyond : List Char)
    (hnul : ∀ c ∈ text, c ≠ '\x00') :
    ∀ S, S ≤ text.length →
      ∃ (segs : List (Nat × Nat)) (T : Nat),
        wrapFrom maxWidth (memoryOf text beyond) S =
          (segs ++ (wrapFrom maxWidth (memoryOf text beyond) T).1,
            (wrapFrom maxWidth (memoryOf text beyond) T).2) ∧
        (T = text.length ∨ T = text.length + 1) ∧
        (∀ se ∈ segs.head?, se.1 = S) ∧
        segs.Chain' (fun a b => b.1 = a.2 + 1) ∧
        (∀ se ∈ segs, se.1 ≤ se.2 ∧ se.2 ≤ text.length) ∧
        (∀ se ∈ segs.getLast?, se.2 + 1 = T) ∧
        (segs = [] → T = S) ∧
        (segs.map (lineAndSkipped text)).flatten = text.drop S := by
  have key : ∀ n S, text.length - S ≤ n → S ≤ text.length →
      ∃ (segs : List (Nat × Nat)) (T : Nat),
        wrapFrom maxWidth (memoryOf text beyond) S =
          (segs ++ (wrapFrom maxWidth (memoryOf text beyond) T).1,
            (wrapFrom maxWidth (memoryOf text beyond) T).2) ∧
        (T = text.length ∨ T = text.length + 1) ∧
        (∀ se ∈ segs.head?, se.1 = S) ∧
        segs.Chain' (fun a b => b.1 = a.2 + 1) ∧
        (∀ se ∈ segs, se.1 ≤ se.2 ∧ se.2 ≤ text.length) ∧
        (∀ se ∈ segs.getLast?, se.2 + 1 = T) ∧
        (segs = [] → T = S) ∧
        (segs.map (lineAndSkipped text)).flatten = text.drop S := by
    intro n
    induction n with
    | zero =>
      intro S h hS
      have hSe : S = text.length := by omega
      subst hSe
      exact ⟨[], text.length, by simp, Or.inl rfl, by simp, by simp, by simp, by simp,
        fun _ => rfl, by simp⟩
    | succ n ih =>
      intro S h hS
      by_cases hlt : S < text.length
      · obtain ⟨c, hc, hne⟩ := getElem?_memoryOf text beyond S hnul hlt
        have hsl := strlen_memoryOf text beyond S hnul hS
        cases hE : lineEnd maxWidth (memoryOf text beyond) S with
        | none =>
          unfold lineEnd at hE
          rw [hsl] at hE
          simp only at hE
          split at hE
          · split at hE <;> simp at hE
          · simp at hE
        | some E =>
          obtain ⟨hge, _, _, m, hm, hle⟩ := lineEnd_spec _ _ _ _ hE
          rw [hsl] at hm
          have hmn : m = text.length - S := (Option.some.inj hm).symm
          have hEle : E ≤ text.length := by omega
          have hstep := wrapFrom_step maxWidth _ S E c hc hne hE
          by_cases hEl : E = text.length
          · refine ⟨[(S, E)], text.length + 1, ?_, Or.inr rfl, by simp, by simp, ?_, ?_,
              by simp, ?_⟩
            · rw [hstep, hEl]
              rfl
            · intro se hse
              simp at hse
              subst hse
              exact ⟨hge, hEle⟩
            · intro se hse
              simp at hse
              subst hse
              simp only
              omega
            · have := lineAndSkipped_drop text S E hge
              rw [List.drop_eq_nil_of_le (by omega : text.length ≤ E + 1)] at this
              simpa using this
          · obtain ⟨segs, T, h1, h2, h3, h4, h5, h6, h7, h8⟩ :=
              ih (E + 1) (by omega) (by omega)
            refine ⟨(S, E) :: segs, T, ?_, h2, by simp, ?_, ?_, ?_, by simp, ?_⟩
            · rw [hstep, h1]
              rfl
            · exact List.Chain'.cons' h4 (fun y hy => h3 y hy)
            · intro se hse
              rcases List.mem_cons.mp hse with h | h
              · subst h
                exact ⟨hge, hEle⟩
              · exact h5 se h
            · intro se hse
              cases hs : segs with
              | nil =>
                rw [hs] at hse
                simp at hse
                subst hse
                simp only
                have := h7 hs
                omega
              | cons b l =>
                rw [hs, List.getLast?_cons_cons] at hse
                rw [hs] at h6
                exact h6 se hse
            · rw [List.map_cons, List.flatten_cons, h8]
              exact lineAndSkipped_drop text S E hge
      · have hSe : S = text.length := by omega
        subst hSe
        exact ⟨[], text.length, by simp, Or.inl rfl, by simp, by simp, by simp, by simp,
          fun _ => rfl, by simp⟩
  intro S hS
  exact key _ S (le_refl _) hS

/-! ## The claims on the wrap loop -/

/-- C1 (wrap width bound): whatever bytes follow the content in memory, the
wrap loop of `displayGameState` ends at a NUL or at a read outside the memory,
and every line `(Start, End)` it prints, those printed after a read past the
terminator of the content included, lies inside the memory, holds
`End - Start` characters, and `End - Start` is at most `MAX_LINE_LENGTH`, so
that the copy into `Line[MAX_LINE_LENGTH + 1]` fits; when the line begins a
run of more than `MAX_LINE_LENGTH` bytes none of which is a space or NUL, in
particular such a run of characters of a content without NUL, its length is
`MAX_LINE_LENGTH` exactly. -/
theorem displayGameState_width (P : Passage) (beyond : List Char) (se : Nat × Nat)
    (hse : se ∈ displayGameState P beyond) :
    (∀ s, (wrap MAX_LINE_LENGTH (memoryOf P.Content beyond)).2 ≠ .unfinished s) ∧
    se.1 ≤ se.2 ∧ se.2 < (memoryOf P.Content beyond).length ∧
    (lineText (memoryOf P.Content beyond) se.1 se.2).length = se.2 - se.1 ∧
    se.2 - se.1 ≤ MAX_LINE_LENGTH ∧
    se.2 - se.1 + 1 ≤ MAX_LINE_LENGTH + 1 ∧
    ((∀ k, k ≤ MAX_LINE_LENGTH →
        charAt (memoryOf P.Content beyond) (se.1 + k) ≠ ' ' ∧
        charAt (memoryOf P.Content beyond) (se.1 + k) ≠ '\x00') →
      se.2 - se.1 = MAX_LINE_LENGTH) ∧
    ((∀ c ∈ P.Content, c ≠ '\x00') →
      (∀ k, k ≤ MAX_LINE_LENGTH →
        se.1 + k < P.Content.length ∧ charAt P.Content (se.1 + k) ≠ ' ') →
      se.2 - se.1 = MAX_LINE_LENGTH) := by
  obtain ⟨_, hE, _⟩ := wrapLoop_mem MAX_LINE_LENGTH (memoryOf P.Content beyond) _ 0 se hse
  obtain ⟨hge, hw, hlt, n, hn, hle⟩ := lineEnd_spec _ _ _ _ hE
  have hcut : (∀ k, k ≤ MAX_LINE_LENGTH →
        charAt (memoryOf P.Content beyond) (se.1 + k) ≠ ' ' ∧
        charAt (memoryOf P.Content beyond) (se.1 + k) ≠ '\x00') →
      se.2 - se.1 = MAX_LINE_LENGTH := by
    intro hrun
    obtain ⟨_, hz, _⟩ := strlen_spec _ _ _ hn
    have hlong : n > MAX_LINE_LENGTH := by
      by_contra hshort
      exact (hrun n (by omega)).2 hz
    have hscan := scanBack_of_no_space (memoryOf P.Content beyond) se.1 MAX_LINE_LENGTH
      (fun i _ hi => (hrun i hi).1)
    unfold lineEnd at hE
    rw [hn] at hE
    simp only at hE
    rw [if_pos hlong, if_pos hscan] at hE
    have := Option.some.inj hE
    omega
  refine ⟨fun s => wrapFrom_finished _ _ 0 s, hge, hlt,
    lineText_length _ _ _ (by omega), hw, by omega, hcut, ?_⟩
  intro hnul hrun
  apply hcut
  intro k hk
  obtain ⟨h1, h2⟩ := hrun k hk
  rw [charAt_memoryOf _ _ _ (by omega)]
  refine ⟨h2, ?_⟩
  unfold charAt
  rw [List.getD_eq_getElem?_getD, List.getElem?_eq_getElem h1]
  exact hnul _ (List.getElem_mem h1)

theorem displayGameState_width_witness :
    (0, 50) ∈ displayGameState ⟨"Start".toList, List.replicate 60 'a', []⟩ [] ∧
    (50 : Nat) - 0 = MAX_LINE_LENGTH :=
  ⟨by decide,
    (displayGameState_width ⟨"Start".toList, List.replicate 60 'a', []⟩ [] (0, 50)
      (by decide)).2.2.2.2.2.2.1 (by decide)⟩

/-- C2 (wrap totality): for the content "Hi" followed in memory by the bytes
'a', 'b', 'c' and two NULs, the wrap loop prints the line `(0, 2)`, reads the
byte at the offset 3, one past the terminator, and prints the line `(3, 6)`,
"abc", which is no substring of the content: the last line ends neither at
the end of the text nor one character before it. -/
theorem wrap_prints_line_outside_text :
    wrap MAX_LINE_LENGTH (memoryOf "Hi".toList ['a', 'b', 'c', '\x00', '\x00'])
      = ([(0, 2), (3, 6)], .done 7) ∧
    wrapLines MAX_LINE_LENGTH (memoryOf "Hi".toList ['a', 'b', 'c', '\x00', '\x00'])
      = ["Hi".toList, "abc".toList] ∧
    (wrap MAX_LINE_LENGTH
      (memoryOf "Hi".toList ['a', 'b', 'c', '\x00', '\x00'])).1.getLast? = some (3, 6) ∧
    ¬ (6 = "Hi".toList.length ∨ 6 + 1 = "Hi".toList.length) ∧
    ¬ (3 ≤ "Hi".toList.length) := by
  decide

/-- C10 (scan position inside the text): on the content "Hi", whatever
follows it in memory, the wrap loop prints the line `(0, 2)`, sets
`Start = End + 1 = 3` and goes on there, evaluating its condition `*Start`
at the offset 3, which is larger than `strlen("Hi") = 2`; when the memory ends
with the terminator that read is outside the memory, and when a NUL follows
the terminator the loop ends on it. -/
theorem wrap_reads_past_terminator :
    (∀ beyond : List Char, wrap MAX_LINE_LENGTH (memoryOf "Hi".toList beyond) =
      ((0, 2) :: (wrapFrom MAX_LINE_LENGTH (memoryOf "Hi".toList beyond) 3).1,
        (wrapFrom MAX_LINE_LENGTH (memoryOf "Hi".toList beyond) 3).2)) ∧
    wrap MAX_LINE_LENGTH (memoryOf "Hi".toList []) = ([(0, 2)], .fault 3) ∧
    wrap MAX_LINE_LENGTH (memoryOf "Hi".toList ['\x00']) = ([(0, 2)], .done 3) ∧
    ¬ ((wrap MAX_LINE_LENGTH (memoryOf "Hi".toList [])).2.offset ≤ "Hi".toList.length) := by
  refine ⟨?_, by decide, by decide, by decide⟩
  intro beyond
  exact wrap_short_text_overrun MAX_LINE_LENGTH "Hi".toList beyond (by decide) (by decide)
    (by decide)

/-- C9 (line-break step): at a scan position `Start` of a text without NUL
where more than `maxWidth` characters are left, whatever follows the text in
memory, when `k` is the largest offset in `1..maxWidth` with a space at
`Start + k`, the line is the `k` characters from `Start` and the scan resumes
at `Start + k + 1`; when no offset in `1..maxWidth` has a space, the line is
the first `maxWidth` characters, the scan resumes at `Start + maxWidth + 1`
and the character at `Start + maxWidth` is in no line.  The text
"abcdefghij klmno" at width 10 gives the lines "abcdefghij" and "klmno":
they are the first two lines whatever follows the text, and the only lines
when the memory ends with the terminator or a NUL follows it. -/
theorem wrap_break_step :
    (∀ (maxWidth : Nat) (text : CString) (beyond : List Char) (Start : Nat),
      (∀ c ∈ text, c ≠ '\x00') →
      maxWidth < text.length - Start →
      (∀ k, 1 ≤ k → k ≤ maxWidth → charAt text (Start + k) = ' ' →
        (∀ j, k < j → j ≤ maxWidth → charAt text (Start + j) ≠ ' ') →
        lineEnd maxWidth (memoryOf text beyond) Start = some (Start + k) ∧
        lineText (memoryOf text beyond) Start (Start + k) = (text.drop Start).take k ∧
        wrapFrom maxWidth (memoryOf text beyond) Start =
          ((Start, Start + k) :: (wrapFrom maxWidth (memoryOf text beyond) (Start + k + 1)).1,
            (wrapFrom maxWidth (memoryOf text beyond) (Start + k + 1)).2)) ∧
      ((∀ k, 1 ≤ k → k ≤ maxWidth → charAt text (Start + k) ≠ ' ') →
        lineEnd maxWidth (memoryOf text beyond) Start = some (Start + maxWidth) ∧
        lineText (memoryOf text beyond) Start (Start + maxWidth)
          = (text.drop Start).take maxWidth ∧
        wrapFrom maxWidth (memoryOf text beyond) Start =
          ((Start, Start + maxWidth) ::
              (wrapFrom maxWidth (memoryOf text beyond) (Start + maxWidth + 1)).1,
            (wrapFrom maxWidth (memoryOf text beyond) (Start + maxWidth + 1)).2) ∧
        ∀ se ∈ (wrapFrom maxWidth (memoryOf text beyond) Start).1,
          ¬ (se.1 ≤ Start + maxWidth ∧ Start + maxWidth < se.2))) ∧
    (∀ beyond : List Char,
      (wrapLines 10 (memoryOf "abcdefghij klmno".toList beyond)).take 2
        = ["abcdefghij".toList, "klmno".toList]) ∧
    wrapLines 10 (memoryOf "abcdefghij klmno".toList [])
      = ["abcdefghij".toList, "klmno".toList] ∧
    wrapLines 10 (memoryOf "abcdefghij klmno".toList ['\x00'])
      = ["abcdefghij".toList, "klmno".toList] := by
  refine ⟨?_, ?_, by decide, by decide⟩
  · intro maxWidth text beyond Start hnul hlong
    have hS : Start < text.length := by omega
    obtain ⟨c, hc, hne⟩ := getElem?_memoryOf text beyond Start hnul hS
    constructor
    · intro k hk1 hk2 hsp hno
      have hEnd := lineEnd_at_space maxWidth text beyond Start k hnul hlong hk1 hk2 hsp hno
      refine ⟨hEnd, ?_, wrapFrom_step _ _ _ _ c hc hne hEnd⟩
      rw [lineText_memoryOf _ _ _ _ (by omega)]
      unfold lineText
      congr 1
      omega
    · intro hno
      have hEnd := lineEnd_hard_cut maxWidth text beyond Start hnul hlong hno
      have hstep := wrapFrom_step _ _ _ _ c hc hne hEnd
      refine ⟨hEnd, ?_, hstep, ?_⟩
      · rw [lineText_memoryOf _ _ _ _ (by omega)]
        unfold lineText
        congr 1
        omega
      · intro se hse
        rw [hstep] at hse
        rcases List.mem_cons.mp hse with h1 | h1
        · subst h1
          simp
        · obtain ⟨a, _, _⟩ := wrapLoop_mem maxWidth (memoryOf text beyond) _
            (Start + maxWidth + 1) se h1
          omega
  · intro beyond
    have hnul : ∀ c ∈ "abcdefghij klmno".toList, c ≠ '\x00' := by decide
    obtain ⟨c, hc, hne⟩ := getElem?_memoryOf "abcdefghij klmno".toList beyond 0 hnul
      (by decide)
    have h1 := wrapFrom_step 10 _ 0 10 c hc hne
      (lineEnd_at_space 10 "abcdefghij klmno".toList beyond 0 10 hnul (by decide)
        (by decide) (by decide) (by decide) (fun j h1 h2 => absurd h2 (by omega)))
    have h2 := wrapFrom_last_line 10 "abcdefghij klmno".toList beyond 11 hnul
      (by decide) (by decide)
    unfold wrapLines wrap
    rw [h1]
    simp only [show (10 : Nat) + 1 = 11 from rfl]
    rw [h2]
    simp only [List.map_cons, List.take_succ_cons, List.take_zero]
    rw [lineText_memoryOf _ _ _ _ (by decide), lineText_memoryOf _ _ _ _ (by decide)]
    decide

theorem wrap_break_step_witness :
    10 < "abcdefghij klmno".toList.length - 0 ∧
    charAt "abcdefghij klmno".toList (0 + 10) = ' ' ∧
    lineEnd 10 (memoryOf "abcdefghij klmno".toList ['x']) 0 = some 10 ∧
    wrapFrom 10 (memoryOf "abcdefghij klmno".toList ['x']) 0 =
      ((0, 10) :: (wrapFrom 10 (memoryOf "abcdefghij klmno".toList ['x']) 11).1,
        (wrapFrom 10 (memoryOf "abcdefghij klmno".toList ['x']) 11).2) :=
  ⟨by decide, by decide,
    ((wrap_break_step.1 10 "abcdefghij klmno".toList ['x'] 0 (by decide) (by decide)).1 10
      (by decide) (by decide) (by decide) (fun j h1 h2 => absurd h2 (by omega))).1,
    ((wrap_break_step.1 10 "abcdefghij klmno".toList ['x'] 0 (by decide) (by decide)).1 10
      (by decide) (by decide) (by decide) (fun j h1 h2 => absurd h2 (by omega))).2.2⟩

/-! ## The lookup -/

theorem findInPassages_eq_none (Name : CString) (Ps : List Passage) :
    findInPassages Name Ps = none ↔ ∀ Q ∈ Ps, Q.PassageName ≠ Name := by
  induction Ps with
  | nil => simp [findInPassages]
  | cons P rest ih =>
    unfold findInPassages
    by_cases h : P.PassageName = Name
    · simp [h]
    · simp [h, ih]

theorem findInPassages_eq_some (Name : CString) (Ps : List Passage) (P : Passage) :
    findInPassages Name Ps = some P ↔
      ∃ i : Nat, Ps[i]? = some P ∧ P.PassageName = Name ∧
        ∀ j : Nat, j < i → ∀ Q : Passage, Ps[j]? = some Q → Q.PassageName ≠ Name := by
  induction Ps with
  | nil => simp [findInPassages]
  | cons R rest ih =>
    unfold findInPassages
    by_cases h : R.PassageName = Name
    · rw [if_pos h]
      constructor
      · intro hP
        have hRP : R = P := Option.some.inj hP
        subst hRP
        exact ⟨0, by simp, h, fun j hj => absurd hj (Nat.not_lt_zero _)⟩
      · rintro ⟨i, hi, _, hbefore⟩
        cases i with
        | zero =>
          simp at hi
          rw [hi]
        | succ n =>
          exact absurd h (hbefore 0 (Nat.succ_pos _) R (by simp))
    · rw [if_neg h, ih]
      constructor
      · rintro ⟨i, hi, hn, hbefore⟩
        refine ⟨i + 1, by simpa using hi, hn, ?_⟩
        intro j hj Q hQ
        cases j with
        | zero =>
          simp at hQ
          rw [← hQ]
          exact h
        | succ m =>
          exact hbefore m (by omega) Q (by simpa using hQ)
      · rintro ⟨i, hi, hn, hbefore⟩
        cases i with
        | zero =>
          simp at hi
          rw [hi] at h
          exact absurd hn h
        | succ n =>
          refine ⟨n, by simpa using hi, hn, ?_⟩
          intro j hj Q hQ
          exact hbefore (j + 1) (by omega) Q (by simpa using hQ)

theorem findInPassages_self (Ps : List Passage)
    (hd : Ps.Pairwise fun a b => a.PassageName ≠ b.PassageName) :
    ∀ P ∈ Ps, findInPassages P.PassageName Ps = some P := by
  induction Ps with
  | nil => intro P hP; simp at hP
  | cons R rest ih =>
    intro P hP
    rw [List.pairwise_cons] at hd
    unfold findInPassages
    rcases List.mem_cons.mp hP with h | h
    · subst h
      simp
    · have hne : R.PassageName ≠ P.PassageName := hd.1 P h
      rw [if_neg hne]
      exact ih hd.2 P h

/-- C5 (lookup correctness): `findPassageByName` returns the passage of
lowest index whose `PassageName` is the name, returns `NULL` exactly when no
passage has the name, and, when the names of the graph are pairwise distinct,
returns every passage of the graph for its own name. -/
theorem findPassageByName_correct (gs : GameState) (Name : CString) :
    (∀ P, findPassageByName gs Name = some P ↔
      ∃ i : Nat, gs.Passages[i]? = some P ∧ P.PassageName = Name ∧
        ∀ j : Nat, j < i → ∀ Q : Passage, gs.Passages[j]? = some Q → Q.PassageName ≠ Name) ∧
    (findPassageByName gs Name = none ↔ ∀ Q ∈ gs.Passages, Q.PassageName ≠ Name) ∧
    ((gs.Passages.Pairwise fun a b => a.PassageName ≠ b.PassageName) →
      ∀ P ∈ gs.Passages, findPassageByName gs P.PassageName = some P) :=
  ⟨fun P => findInPassages_eq_some Name gs.Passages P,
    findInPassages_eq_none Name gs.Passages,
    fun hd => findInPassages_self gs.Passages hd⟩

theorem findPassageByName_correct_witness :
    findPassageByName
      ⟨[⟨"Start".toList, "Hi".toList, [⟨"Go".toList, "End".toList⟩]⟩,
        ⟨"End".toList, "Bye".toList, []⟩]⟩ "End".toList
      = some ⟨"End".toList, "Bye".toList, []⟩ :=
  (findPassageByName_correct
    ⟨[⟨"Start".toList, "Hi".toList, [⟨"Go".toList, "End".toList⟩]⟩,
      ⟨"End".toList, "Bye".toList, []⟩]⟩ "End".toList).2.2 (by decide)
    ⟨"End".toList, "Bye".toList, []⟩ (by decide)

/-! ## The input controller -/

theorem handleKeys_cons (n I : Nat) (Ch : Int) (rest : List Int) :
    handleKeys n I (Ch :: rest) =
      if Ch = 10 then .returned I rest
      else if Ch = KEY_DOWN ∧ I < n - 1 then handleKeys n (I + 1) rest
      else if Ch = KEY_UP ∧ I > 0 then handleKeys n (I - 1) rest
      else if Ch = 27 then displayEscapeMenu n I 0 rest
      else handleKeys n I rest := by
  rw [handleKeys]

theorem displayEscapeMenu_cons (n I sel : Nat) (C : Int) (rest : List Int) :
    displayEscapeMenu n I sel (C :: rest) =
      if C = KEY_F 1 then handleKeys n I rest
      else if C = KEY_DOWN then displayEscapeMenu n I (min (sel + 1) 1) rest
      else if C = KEY_UP then displayEscapeMenu n I (sel - 1) rest
      else if C = 27 then handleKeys n I rest
      else if C = 10 then
        if sel = 1 then .exited else handleKeys n I rest
      else displayEscapeMenu n I sel rest := by
  rw [displayEscapeMenu]

/-- The cursor stays below `numLinks`, in the selection loop and while the
escape menu is open. -/
theorem cursor_in_range (n : Nat) (keys : List Int) :
    ∀ I sel, I < n →
      (∀ c ∈ (handleKeys n I keys).cursor, c < n) ∧
      (∀ c ∈ (displayEscapeMenu n I sel keys).cursor, c < n) := by
  induction keys with
  | nil =>
    intro I sel hI
    rw [handleKeys, displayEscapeMenu]
    simp [InputResult.cursor, hI]
  | cons k rest ih =>
    intro I sel hI
    constructor
    · rw [handleKeys_cons]
      split
      · simp [InputResult.cursor, hI]
      · split
        · rename_i h
          exact (ih (I + 1) 0 (by omega)).1
        · split
          · exact (ih (I - 1) 0 (by omega)).1
          · split
            · exact (ih I 0 hI).2
            · exact (ih I 0 hI).1
    · rw [displayEscapeMenu_cons]
      split
      · exact (ih I 0 hI).1
      · split
        · exact (ih I _ hI).2
        · split
          · exact (ih I _ hI).2
          · split
            · exact (ih I 0 hI).1
            · split
              · split
                · simp [InputResult.cursor]
                · exact (ih I 0 hI).1
              · exact (ih I _ hI).2

/-- The escape menu ends the process, or waits for a key, or closes and
hands the keys left to the selection loop, whose cursor is the one it had
when the menu opened. -/
theorem displayEscapeMenu_resumes (n I : Nat) (keys : List Int) :
    ∀ sel, displayEscapeMenu n I sel keys = .exited ∨
      displayEscapeMenu n I sel keys = .blocked I ∨
      ∃ rest2, rest2.length < keys.length ∧ rest2 <:+ keys ∧
        displayEscapeMenu n I sel keys = handleKeys n I rest2 := by
  induction keys with
  | nil =>
    intro sel
    right; left
    rw [displayEscapeMenu]
  | cons k rest ih =>
    intro sel
    have hclose : ∃ rest2, rest2.length < (k :: rest).length ∧ rest2 <:+ (k :: rest) ∧
        handleKeys n I rest = handleKeys n I rest2 :=
      ⟨rest, by simp, List.suffix_cons k rest, rfl⟩
    have hgo : ∀ sel2, displayEscapeMenu n I sel2 rest = .exited ∨
        displayEscapeMenu n I sel2 rest = .blocked I ∨
        ∃ rest2, rest2.length < (k :: rest).length ∧ rest2 <:+ (k :: rest) ∧
          displayEscapeMenu n I sel2 rest = handleKeys n I rest2 := by
      intro sel2
      rcases ih sel2 with h | h | ⟨r, h1, h2, h3⟩
      · exact Or.inl h
      · exact Or.inr (Or.inl h)
      · exact Or.inr (Or.inr ⟨r, by simp; omega, h2.trans (List.suffix_cons k rest), h3⟩)
    rw [displayEscapeMenu_cons]
    split
    · exact Or.inr (Or.inr hclose)
    · split
      · exact hgo _
      · split
        · exact hgo _
        · split
          · exact Or.inr (Or.inr hclose)
          · split
            · split
              · exact Or.inl rfl
              · exact Or.inr (Or.inr hclose)
            · exact hgo _

/-- C7 (cursor transition and bounds): for a passage with at least one link
the cursor of `handleUserInput` starts at 0 and is below `numLinks` after
every sequence of key events; from a cursor `I`, Down goes on with
`min (I + 1) (numLinks - 1)`, Up with `I - 1` cut off at 0, Escape opens the
escape menu, which ends the process, waits, or closes and hands the keys left
to the selection loop with the cursor `I` unchanged (so for Escape followed by
Confirm on `Continue`, or by Escape), every other key but Confirm leaves `I`
unchanged, and Confirm returns `I`.  With 3 links and the cursor at 1, Escape,
Confirm on `Continue` and Confirm return 1. -/
theorem handleUserInput_cursor :
    (∀ (P : Passage) (keys : List Int), 1 ≤ P.numLinks →
      handleUserInput P keys = handleKeys P.numLinks 0 keys ∧
      ∀ c ∈ (handleUserInput P keys).cursor, c < P.numLinks) ∧
    (∀ (n I : Nat) (rest : List Int), 1 ≤ n → I < n →
      (∀ c ∈ (handleKeys n I rest).cursor, c < n) ∧
      handleKeys n I (KEY_DOWN :: rest) = handleKeys n (min (I + 1) (n - 1)) rest ∧
      handleKeys n I (KEY_UP :: rest) = handleKeys n (I - 1) rest ∧
      ((I - 1 : Nat) : Int) = max ((I : Int) - 1) 0 ∧
      handleKeys n I (27 :: rest) = displayEscapeMenu n I 0 rest ∧
      (∀ sel, displayEscapeMenu n I sel rest = .exited ∨
        displayEscapeMenu n I sel rest = .blocked I ∨
        ∃ rest2, rest2.length < rest.length ∧ rest2 <:+ rest ∧
          displayEscapeMenu n I sel rest = handleKeys n I rest2) ∧
      handleKeys n I (27 :: 10 :: rest) = handleKeys n I rest ∧
      handleKeys n I (27 :: 27 :: rest) = handleKeys n I rest ∧
      (∀ Ch : Int, Ch ≠ 10 → Ch ≠ KEY_DOWN → Ch ≠ KEY_UP → Ch ≠ 27 →
        handleKeys n I (Ch :: rest) = handleKeys n I rest) ∧
      handleKeys n I (10 :: rest) = .returned I rest) ∧
    handleKeys 3 1 [27, 10, 10] = .returned 1 [] := by
  refine ⟨?_, ?_, by decide⟩
  · intro P keys hn
    have h0 : handleUserInput P keys = handleKeys P.numLinks 0 keys := by
      unfold handleUserInput
      rw [if_pos (by omega)]
    refine ⟨h0, ?_⟩
    rw [h0]
    exact (cursor_in_range P.numLinks keys 0 0 (by omega)).1
  · intro n I rest hn hI
    refine ⟨(cursor_in_range n rest I 0 hI).1, ?_, ?_, ?_, ?_,
      displayEscapeMenu_resumes n I rest, ?_, ?_, ?_, ?_⟩
    · rw [handleKeys_cons]
      by_cases hlast : I < n - 1
      · have hmin : min (I + 1) (n - 1) = I + 1 := by omega
        simp [KEY_DOWN, hlast, hmin]
      · have hmin : min (I + 1) (n - 1) = I := by omega
        simp [KEY_DOWN, KEY_UP, hlast, hmin]
    · rw [handleKeys_cons]
      by_cases hpos : I > 0
      · simp [KEY_DOWN, KEY_UP, hpos]
      · have hz : I = 0 := by omega
        subst hz
        simp [KEY_DOWN, KEY_UP]
    · omega
    · rw [handleKeys_cons]
      simp [KEY_DOWN, KEY_UP]
    · rw [handleKeys_cons, displayEscapeMenu_cons]
      simp [KEY_DOWN, KEY_UP, KEY_F]
    · rw [handleKeys_cons, displayEscapeMenu_cons]
      simp [KEY_DOWN, KEY_UP, KEY_F]
    · intro Ch h1 h2 h3 h4
      rw [handleKeys_cons]
      simp [h1, h2, h3, h4]
    · rw [handleKeys_cons]
      simp

theorem handleUserInput_cursor_witness :
    handleUserInput
        ⟨"Start".toList, "Hi".toList,
          [⟨"a".toList, "A".toList⟩, ⟨"b".toList, "B".toList⟩, ⟨"c".toList, "C".toList⟩]⟩
        [KEY_DOWN, 27, 10, 10]
      = handleKeys 3 0 [KEY_DOWN, 27, 10, 10] ∧
    handleKeys 3 1 (KEY_DOWN :: [10]) = handleKeys 3 (min (1 + 1) (3 - 1)) [10] ∧
    handleKeys 3 1 (27 :: 10 :: [10]) = handleKeys 3 1 [10] :=
  ⟨(handleUserInput_cursor.1
      ⟨"Start".toList, "Hi".toList,
        [⟨"a".toList, "A".toList⟩, ⟨"b".toList, "B".toList⟩, ⟨"c".toList, "C".toList⟩]⟩
      [KEY_DOWN, 27, 10, 10] (by decide)).1,
    (handleUserInput_cursor.2.1 3 1 [10] (by decide) (by decide)).2.1,
    (handleUserInput_cursor.2.1 3 1 [10] (by decide) (by decide)).2.2.2.2.2.2.1⟩

/-! ## The loop of `main` -/

/-- C3 (link resolution): when `handleUserInput` returns a link index `i`
below `numLinks`, the iteration of the loop of `main` makes the passage that
`findPassageByName` finds for `Links[i]->Target` the current passage, and
leaves the loop, `main` returning 0, when no passage has that name.  A graph
whose only link targets "Nowhere" terminates; in the graph Start -> End the
index 0 chosen at "Start" makes "End" current. -/
theorem main_link_resolution :
    (∀ (gs : GameState) (cur : Passage) (keys : List Int) (i : Nat) (rest : List Int)
        (h : i < cur.numLinks),
      handleUserInput cur keys = .returned i rest →
      (∀ P, findPassageByName gs (cur.Links.get ⟨i, h⟩).Target = some P →
        mainIteration gs cur keys = .next P rest) ∧
      (findPassageByName gs (cur.Links.get ⟨i, h⟩).Target = none →
        mainIteration gs cur keys = .finished 0)) ∧
    mainIteration ⟨[⟨"Start".toList, "Hi".toList, [⟨"Go".toList, "Nowhere".toList⟩]⟩]⟩
        ⟨"Start".toList, "Hi".toList, [⟨"Go".toList, "Nowhere".toList⟩]⟩ [10]
      = .finished 0 ∧
    mainIteration
        ⟨[⟨"Start".toList, "Hi".toList, [⟨"Go".toList, "End".toList⟩]⟩,
          ⟨"End".toList, "Bye".toList, []⟩]⟩
        ⟨"Start".toList, "Hi".toList, [⟨"Go".toList, "End".toList⟩]⟩ [10]
      = .next ⟨"End".toList, "Bye".toList, []⟩ [] := by
  refine ⟨?_, by decide, by decide⟩
  intro gs cur keys i rest h hsel
  have hget : cur.Links[i]? = some (cur.Links.get ⟨i, h⟩) := by
    rw [List.getElem?_eq_getElem h]
    rfl
  constructor
  · intro P hP
    unfold mainIteration
    rw [hsel]
    simp only [hget, hP]
  · intro hnone
    unfold mainIteration
    rw [hsel]
    simp only [hget, hnone]

theorem main_link_resolution_witness :
    mainIteration
        ⟨[⟨"Start".toList, "Hi".toList, [⟨"Go".toList, "End".toList⟩]⟩,
          ⟨"End".toList, "Bye".toList, []⟩]⟩
        ⟨"Start".toList, "Hi".toList, [⟨"Go".toList, "End".toList⟩]⟩ [KEY_DOWN, 10, 27]
      = .next ⟨"End".toList, "Bye".toList, []⟩ [27] :=
  (main_link_resolution.1
    ⟨[⟨"Start".toList, "Hi".toList, [⟨"Go".toList, "End".toList⟩]⟩,
      ⟨"End".toList, "Bye".toList, []⟩]⟩
    ⟨"Start".toList, "Hi".toList, [⟨"Go".toList, "End".toList⟩]⟩ [KEY_DOWN, 10, 27] 0 [27]
    (by decide) (by decide)).1 ⟨"End".toList, "Bye".toList, []⟩ (by decide)

/-- For a passage without links `handleUserInput` returns 0 after any key,
and the read `Links[0]` in `main` is outside the empty array. -/
theorem mainIteration_no_links (gs : GameState) (cur : Passage) (k : Int)
    (rest : List Int) (h : cur.Links = []) :
    handleUserInput cur (k :: rest) = .returned 0 rest ∧
    mainIteration gs cur (k :: rest) = .undefined := by
  have h0 : handleUserInput cur (k :: rest) = .returned 0 rest := by
    unfold handleUserInput Passage.numLinks
    rw [h]
    rfl
  refine ⟨h0, ?_⟩
  unfold mainIteration
  rw [h0, h]
  rfl

/-- C4 (terminal passage): in the graph Start -> End, with "End" current,
after the key that acknowledges the "End Game" screen the loop of `main`
does not end: it reads `Links[0]` of the empty link array of "End". -/
theorem main_terminal_passage_reads_no_link :
    mainIteration
        ⟨[⟨"Start".toList, "Hi".toList, [⟨"Go".toList, "End".toList⟩]⟩,
          ⟨"End".toList, "Bye".toList, []⟩]⟩
        ⟨"End".toList, "Bye".toList, []⟩ [10]
      = .undefined ∧
    mainIteration
        ⟨[⟨"Start".toList, "Hi".toList, [⟨"Go".toList, "End".toList⟩]⟩,
          ⟨"End".toList, "Bye".toList, []⟩]⟩
        ⟨"End".toList, "Bye".toList, []⟩ [10]
      ≠ .finished 0 := by
  decide

/-- C6 (link index guarantee): for the passage "End", which has no link,
`handleUserInput` returns the index 0, which is not below `numLinks = 0`, and
`Links[0]` is no element of the link array. -/
theorem handleUserInput_index_not_below_numLinks :
    handleUserInput ⟨"End".toList, "Bye".toList, []⟩ [10] = .returned 0 [] ∧
    ¬ (0 < Passage.numLinks ⟨"End".toList, "Bye".toList, []⟩) ∧
    (Passage.Links ⟨"End".toList, "Bye".toList, []⟩)[0]? = none := by
  decide

/-- The index `handleUserInput` returns is below `numLinks` for every passage
that has a link. -/
theorem handleUserInput_index_bound (P : Passage) (keys : List Int) (i : Nat)
    (rest : List Int) (hn : 1 ≤ P.numLinks)
    (h : handleUserInput P keys = .returned i rest) : i < P.numLinks := by
  have h0 : handleUserInput P keys = handleKeys P.numLinks 0 keys := by
    unfold handleUserInput
    rw [if_pos (by omega)]
  have hr := (cursor_in_range P.numLinks keys 0 0 (by omega)).1
  rw [← h0, h] at hr
  exact hr i (by simp [InputResult.cursor])

/-! ## Loading -/

theorem loadPassages_append (pre rest : List Json) (Ps Rs : List Passage)
    (h1 : loadPassages pre = some Ps) (h2 : loadPassages rest = some Rs) :
    loadPassages (pre ++ rest) = some (Ps ++ Rs) := by
  induction pre generalizing Ps with
  | nil =>
    simp only [loadPassages] at h1
    have hPs : Ps = [] := (Option.some.inj h1).symm
    subst hPs
    simpa using h2
  | cons J pre ih =>
    rw [List.cons_append]
    unfold loadPassages at h1 ⊢
    cases hJ : loadPassage J with
    | none => rw [hJ] at h1; simp at h1
    | some P =>
      rw [hJ] at h1
      simp only at h1 ⊢
      cases hpre : loadPassages pre with
      | none => rw [hpre] at h1; simp at h1
      | some Ps2 =>
        rw [hpre] at h1
        simp only at h1
        have hPs : Ps = P :: Ps2 := (Option.some.inj h1).symm
        subst hPs
        rw [ih Ps2 hpre]
        rfl

/-- A passage record with the strings `PassageName` and `Content` and
without `Links` is loaded as a passage without links. -/
theorem loadPassage_without_links (members : List (CString × Json))
    (name content : CString)
    (hname : json_object_get (some (.object members)) "PassageName".toList
      = some (.string name))
    (hcontent : json_object_get (some (.object members)) "Content".toList
      = some (.string content))
    (hlinks : json_object_get (some (.object members)) "Links".toList = none) :
    loadPassage (.object members) = some ⟨name, content, []⟩ := by
  unfold loadPassage
  rw [hname, hcontent, hlinks]
  rfl

/-- The empty sequence is loaded as a graph without passages, and `main`
then reads `Passages[0]` of the empty array. -/
theorem loadGame_loads_empty_sequence :
    loadGame (some (.array [])) = .loaded ⟨[]⟩ ∧
    mainStartup 2 (some (.array [])) = .undefined := by
  decide

/-- A passage record without `PassageName` makes `loadGame` execute
`strdup(NULL)`; it does not return `NULL`. -/
theorem loadGame_missing_name_undefined :
    loadGame (some (.array [.object [("Content".toList, .string "Hi".toList)]]))
      = .undefined := by
  decide

/-- The function `loadGame` returns `NULL` only for a file that could not be
decoded and for a root that is not a sequence. -/
theorem loadGame_null_iff (Root : Option Json) :
    loadGame Root = .null ↔
      Root = none ∨ ∃ r, Root = some r ∧ json_is_array r = false := by
  cases Root with
  | none => simp [loadGame]
  | some r =>
    unfold loadGame
    cases hr : json_is_array r with
    | false => simp [hr]
    | true =>
      cases hp : loadPassages (json_array_elems (some r)) with
      | none => simp [hr, hp]
      | some Ps => simp [hr, hp]

/-- C8 (load-time validation), as stated, fails: a passage record with
`PassageName` and `Content` and without `Links` is missing a required field,
and `loadGame` returns a graph for it, the passage having no link, so that
`main` does not take the exit with code 1 and enters its loop. -/
theorem loadGame_loads_record_without_links :
    loadGame (some (.array [.object
        [("PassageName".toList, .string "Start".toList),
          ("Content".toList, .string "Hi".toList)]]))
      = .loaded ⟨[⟨"Start".toList, "Hi".toList, []⟩]⟩ ∧
    loadGame (some (.array [.object
        [("PassageName".toList, .string "Start".toList),
          ("Content".toList, .string "Hi".toList)]]))
      ≠ .null ∧
    mainStartup 2 (some (.array [.object
        [("PassageName".toList, .string "Start".toList),
          ("Content".toList, .string "Hi".toList)]]))
      = .play ⟨[⟨"Start".toList, "Hi".toList, []⟩]⟩ ⟨"Start".toList, "Hi".toList, []⟩ := by
  decide

/-- C8 (load-time validation), amended: `loadGame` returns `NULL`, and `main`
takes the exit with code 1, whenever the file could not be decoded or the
decoded root is not a sequence; a passage record with the strings
`PassageName` and `Content` and without `Links` is not rejected: when the
records before and after it load, the graph is returned with that record as a
passage without links, and `main` enters its loop. -/
theorem loadGame_validation :
    (∀ Root : Option Json,
      (Root = none ∨ ∃ r, Root = some r ∧ json_is_array r = false) →
      loadGame Root = .null ∧ ∀ Argc, mainStartup Argc Root = .exit 1) ∧
    (∀ (pre post : List Json) (Ps Qs : List Passage)
        (members : List (CString × Json)) (name content : CString),
      loadPassages pre = some Ps → loadPassages post = some Qs →
      json_object_get (some (.object members)) "PassageName".toList
        = some (.string name) →
      json_object_get (some (.object members)) "Content".toList
        = some (.string content) →
      json_object_get (some (.object members)) "Links".toList = none →
      loadGame (some (.array (pre ++ .object members :: post)))
        = .loaded ⟨Ps ++ ⟨name, content, []⟩ :: Qs⟩ ∧
      ∀ Argc, 2 ≤ Argc →
        ∃ P, mainStartup Argc (some (.array (pre ++ .object members :: post)))
          = .play ⟨Ps ++ ⟨name, content, []⟩ :: Qs⟩ P) := by
  constructor
  · intro Root h
    have hnull : loadGame Root = .null := (loadGame_null_iff Root).mpr h
    refine ⟨hnull, fun Argc => ?_⟩
    unfold mainStartup
    rw [hnull]
    split <;> rfl
  · intro pre post Ps Qs members name content hpre hpost hname hcontent hlinks
    have hrec : loadPassages (.object members :: post)
        = some (⟨name, content, []⟩ :: Qs) := by
      rw [loadPassages, loadPassage_without_links members name content hname hcontent hlinks,
        hpost]
    have hall := loadPassages_append pre _ Ps _ hpre hrec
    have hload : loadGame (some (.array (pre ++ .object members :: post)))
        = .loaded ⟨Ps ++ ⟨name, content, []⟩ :: Qs⟩ := by
      unfold loadGame
      simp only [json_is_array, json_array_elems, if_true, hall]
    refine ⟨hload, fun Argc hA => ?_⟩
    unfold mainStartup
    rw [if_neg (by omega), hload]
    cases Ps with
    | nil => exact ⟨⟨name, content, []⟩, by simp⟩
    | cons P Ps2 => exact ⟨P, by simp⟩

theorem loadGame_validation_witness :
    (loadGame (some (.object [])) = .null ∧
      mainStartup 2 (some (.object [])) = .exit 1) ∧
    loadGame (some (.array ([] ++ .object
        [("PassageName".toList, .string "End".toList),
          ("Content".toList, .string "Bye".toList)] :: [])))
      = .loaded ⟨[] ++ ⟨"End".toList, "Bye".toList, []⟩ :: []⟩ :=
  ⟨⟨(loadGame_validation.1 (some (.object [])) (Or.inr ⟨.object [], rfl, rfl⟩)).1,
      (loadGame_validation.1 (some (.object [])) (Or.inr ⟨.object [], rfl, rfl⟩)).2 2⟩,
    (loadGame_validation.2 [] [] [] []
      [("PassageName".toList, .string "End".toList),
        ("Content".toList, .string "Bye".toList)]
      "End".toList "Bye".toList rfl rfl rfl rfl rfl).1⟩

end CTales
